import Mathlib

/-!
Verification of the maubot ChatGPT plugin (`src/chatgpt/bot.py` and
`src/chatgpt/services/ai_service.py`) against its natural-language
specification.  The Python code is shallowly embedded: each relevant
function of the source is translated into an executable Lean definition,
Python exceptions become `Except` errors, Python dicts become
insertion-ordered association lists, and wall-clock times become
rationals.  All theorems are stated over these definitions.
-/

namespace MaubotChatGPT

/-! ## Character-level utilities shared by the embedded functions -/

/-- Python regex word characters for the ASCII inputs in scope: the class
`[\w-]` of the model-override pattern in `chat_gpt_request`. -/
def isTokenChar (c : Char) : Bool :=
  c.isAlphanum || c = '_' || c = '-'

/-- Default whitespace removed by Python `str.strip()` (ASCII range). -/
def isPyWs (c : Char) : Bool :=
  c = ' ' || c = '\t' || c = '\n' || c = '\r' || c = '\x0b' || c = '\x0c'

/-- Python `str.strip()` on a character list: drop whitespace from both ends. -/
def pyStripList (l : List Char) : List Char :=
  ((l.dropWhile isPyWs).reverse.dropWhile isPyWs).reverse

/-- Python `str.strip()`. -/
def pyStrip (s : String) : String :=
  ⟨pyStripList s.data⟩

/-- Leftmost match of the model-override regex `![\w-]+` used at
`bot.py:123`: returns `(prefix before the match, matched word without
the bang, suffix after the match)`.  The `+` is greedy, as in `re`. -/
def findToken : List Char → Option (List Char × String × List Char)
  | [] => none
  | c :: rest =>
    if c = '!' then
      let run := rest.takeWhile isTokenChar
      if run.isEmpty then
        (findToken rest).map (fun r => (c :: r.1, r.2.1, r.2.2))
      else
        some ([], ⟨run⟩, rest.drop run.length)
    else
      (findToken rest).map (fun r => (c :: r.1, r.2.1, r.2.2))

/-- The effect of `bot.py:127-130` on one message content: find the first
`![\w-]+` match; on success return the extracted model word together with
`re.sub(pattern, "", content, count=1).strip()`. -/
def stripFirstToken (s : String) : Option (String × String) :=
  (findToken s.data).map (fun r => (r.2.1, ⟨pyStripList (r.1 ++ r.2.2)⟩))

/-- The sender-handle extraction `^@([a-zA-Z0-9]+):` of `bot.py:65-67`
(also `bot.py:251`): group 1 on a match, `""` otherwise. -/
def filteredName (s : String) : String :=
  match s.data with
  | '@' :: rest =>
    let run := rest.takeWhile Char.isAlphanum
    if run.isEmpty then ""
    else
      match rest.drop run.length with
      | ':' :: _ => ⟨run⟩
      | _ => ""
  | _ => ""

/-! ## JSON values, `json.loads` and `json.dumps`

The tool-call argument strings flow through `json.loads` (`bot.py:191`,
`bot.py:202`) and `json.dumps` (`bot.py:222`).  The embedded parser
covers the JSON fragment exercised by this plugin (strings, integers,
booleans, null, arrays, objects, the simple escapes); anything outside
that fragment is a parse error, exactly like a `json.JSONDecodeError`. -/

inductive Json where
  | null : Json
  | bool (b : Bool) : Json
  | num (n : Int) : Json
  | str (s : String) : Json
  | arr (xs : List Json) : Json
  | obj (kvs : List (String × Json)) : Json

/-- JSON whitespace. -/
def isJsonWs (c : Char) : Bool :=
  c = ' ' || c = '\t' || c = '\n' || c = '\r'

/-- Decode one simple string escape character. -/
def unescapeChar (c : Char) : Option Char :=
  if c = '"' then some '"'
  else if c = '\\' then some '\\'
  else if c = '/' then some '/'
  else if c = 'n' then some '\n'
  else if c = 't' then some '\t'
  else if c = 'r' then some '\r'
  else none

/-- Parse the body of a JSON string after the opening quote; returns the
string and the remainder after the closing quote. -/
def parseStrBody : List Char → Except Unit (String × List Char)
  | [] => .error ()
  | '\\' :: c :: rest =>
    match unescapeChar c with
    | some u => do
      let (s, r) ← parseStrBody rest
      .ok (⟨u :: s.data⟩, r)
    | none => .error ()
  | '"' :: rest => .ok ("", rest)
  | c :: rest => do
    let (s, r) ← parseStrBody rest
    .ok (⟨c :: s.data⟩, r)

/-- Parse a run of decimal digits into a natural number. -/
def digitsToNat (l : List Char) : Nat :=
  l.foldl (fun acc c => acc * 10 + (c.toNat - '0'.toNat)) 0

mutual

/-- Fuel-bounded parser for one JSON value; returns the value and the
unconsumed remainder. -/
def parseVal : Nat → List Char → Except Unit (Json × List Char)
  | 0, _ => .error ()
  | fuel + 1, cs =>
    match cs.dropWhile isJsonWs with
    | 'n' :: 'u' :: 'l' :: 'l' :: rest => .ok (.null, rest)
    | 't' :: 'r' :: 'u' :: 'e' :: rest => .ok (.bool true, rest)
    | 'f' :: 'a' :: 'l' :: 's' :: 'e' :: rest => .ok (.bool false, rest)
    | '"' :: rest => do
      let (s, r) ← parseStrBody rest
      .ok (.str s, r)
    | '[' :: rest =>
      (match rest.dropWhile isJsonWs with
       | ']' :: r => .ok (.arr [], r)
       | _ => do
         let (xs, r) ← parseElems fuel rest
         .ok (.arr xs, r))
    | '\x7b' :: rest =>
      (match rest.dropWhile isJsonWs with
       | '\x7d' :: r => .ok (.obj [], r)
       | _ => do
         let (kvs, r) ← parseMembers fuel rest
         .ok (.obj kvs, r))
    | '-' :: rest =>
      let digits := rest.takeWhile Char.isDigit
      if digits.isEmpty then .error ()
      else .ok (.num (-(digitsToNat digits : Int)), rest.drop digits.length)
    | c :: rest =>
      if c.isDigit then
        let digits := (c :: rest).takeWhile Char.isDigit
        .ok (.num (digitsToNat digits : Int), (c :: rest).drop digits.length)
      else .error ()
    | [] => .error ()

/-- Parse one or more comma-separated array elements and the closing `]`. -/
def parseElems : Nat → List Char → Except Unit (List Json × List Char)
  | 0, _ => .error ()
  | fuel + 1, cs => do
    let (x, r) ← parseVal fuel cs
    match r.dropWhile isJsonWs with
    | ',' :: r2 => do
      let (xs, r3) ← parseElems fuel r2
      .ok (x :: xs, r3)
    | ']' :: r2 => .ok ([x], r2)
    | _ => .error ()

/-- Parse one or more comma-separated object members and the closing brace. -/
def parseMembers : Nat → List Char → Except Unit (List (String × Json) × List Char)
  | 0, _ => .error ()
  | fuel + 1, cs =>
    match cs.dropWhile isJsonWs with
    | '"' :: rest => do
      let (k, r) ← parseStrBody rest
      match r.dropWhile isJsonWs with
      | ':' :: r2 => do
        let (v, r3) ← parseVal fuel r2
        match r3.dropWhile isJsonWs with
        | ',' :: r4 => do
          let (kvs, r5) ← parseMembers fuel r4
          .ok ((k, v) :: kvs, r5)
        | '\x7d' :: r4 => .ok ([(k, v)], r4)
        | _ => .error ()
      | _ => .error ()
    | _ => .error ()

end

/-- Python `json.loads` on a string: parse one value, then require only
whitespace to remain. -/
def parseJson (s : String) : Except Unit Json :=
  match parseVal (s.length + 1) s.data with
  | .ok (j, rest) => if (rest.dropWhile isJsonWs).isEmpty then .ok j else .error ()
  | .error e => .error e

/-- Escape a character for JSON output. -/
def dumpsEscape (c : Char) : List Char :=
  if c = '"' then ['\\', '"']
  else if c = '\\' then ['\\', '\\'] else [c]

/-- Serialized form of a JSON string literal. -/
def dumpsStr (s : String) : String :=
  ⟨'"' :: (s.data.flatMap dumpsEscape) ++ ['"']⟩

mutual

/-- Python `json.dumps` with its default separators `", "` and `": "`,
as called at `bot.py:222`. -/
def dumpsJson : Json → String
  | .null => "null"
  | .bool true => "true"
  | .bool false => "false"
  | .num n => toString n
  | .str s => dumpsStr s
  | .arr xs => "[" ++ dumpsList xs ++ "]"
  | .obj kvs => "\x7b" ++ dumpsMembers kvs ++ "\x7d"

/-- Comma-separated serialization of array elements. -/
def dumpsList : List Json → String
  | [] => ""
  | [x] => dumpsJson x
  | x :: xs => dumpsJson x ++ ", " ++ dumpsList xs

/-- Comma-separated serialization of object members. -/
def dumpsMembers : List (String × Json) → String
  | [] => ""
  | [(k, v)] => dumpsStr k ++ ": " ++ dumpsJson v
  | (k, v) :: kvs => dumpsStr k ++ ": " ++ dumpsJson v ++ ", " ++ dumpsMembers kvs

end

mutual

/-- Python `str()` of a value produced by `json.loads`, as interpolated
into the combined status edit at `bot.py:192` (dict/list repr with
single-quoted strings). -/
def pyRepr : Json → String
  | .null => "None"
  | .bool true => "True"
  | .bool false => "False"
  | .num n => toString n
  | .str s => "\x27" ++ s ++ "\x27"
  | .arr xs => "[" ++ pyReprList xs ++ "]"
  | .obj kvs => "\x7b" ++ pyReprMembers kvs ++ "\x7d"

/-- Comma-separated repr of list items. -/
def pyReprList : List Json → String
  | [] => ""
  | [x] => pyRepr x
  | x :: xs => pyRepr x ++ ", " ++ pyReprList xs

/-- Comma-separated repr of dict items. -/
def pyReprMembers : List (String × Json) → String
  | [] => ""
  | [(k, v)] => "\x27" ++ k ++ "\x27: " ++ pyRepr v
  | (k, v) :: kvs => "\x27" ++ k ++ "\x27: " ++ pyRepr v ++ ", " ++ pyReprMembers kvs

end

/-! ## Messages and conversation construction (`chat_gpt_request`, `bot.py:76-131`)

A message is the Python dict used throughout `chat_gpt_request`; the
optional fields model keys that only some messages carry (`content` is
`None` on the assistant tool-call descriptors of `bot.py:214-225`). -/

/-- The tool-call descriptor attached to an assistant message at
`bot.py:217-224`. -/
structure ToolCallOut where
  id : String
  type : String
  fnName : String
  fnArguments : String
deriving DecidableEq

/-- One conversation message. -/
structure Msg where
  role : String
  name : Option String := none
  content : Option String := none
  toolCallId : Option String := none
  toolCalls : List ToolCallOut := []
deriving DecidableEq

/-- A default message for positional `getD` access in theorem statements. -/
def dMsg : Msg := ⟨"", none, none, none, []⟩

/-- Content of the synthesized developer message (`bot.py:77`), with the
current Helsinki date and time interpolated. -/
def devContent (dt tm : String) : String :=
  "Your role is to be a chatbot called Matrix. Prefer metric units. Do not use latex, always use markdown Today is "
    ++ dt ++ " and time is " ++ tm ++ "."

/-- The synthesized developer message at the head of every conversation. -/
def devMsg (dt tm : String) : Msg :=
  ⟨"developer", none, some (devContent dt tm), none, []⟩

/-- The new user message appended at `bot.py:120`. -/
def userMsg (nm q : String) : Msg :=
  ⟨"user", some nm, some q, none, []⟩

/-- Conversation construction of `bot.py:76-120`: the synthesized
developer message, then the `conversation_history` argument, then the new
user message with the sender handle filtered by `filteredName`.
(`bot.py:117` guards the `extend` with a truthiness test, which is the
identity for an empty history.) -/
def buildMessages (dt tm : String) (hist : List Msg) (sender q : String) : List Msg :=
  devMsg dt tm :: (hist ++ [userMsg (filteredName sender) q])

/-- Python exceptions that the embedded code can raise uncaught. -/
inductive PyErr where
  | typeError : PyErr
  | attributeError : PyErr
  | jsonDecode : PyErr
  | nameError : PyErr
  | keyError : PyErr
deriving DecidableEq

/-- Replace a message content. -/
def withContent (m : Msg) (c : Option String) : Msg :=
  ⟨m.role, m.name, c, m.toolCallId, m.toolCalls⟩

/-- The model-override scan of `bot.py:122-131`: walk the messages in
order; on the first content with a `![\w-]+` match, take the word as the
model, strip the first occurrence from that message (trimmed), and stop.
`pattern.search(None)` on a `None` content raises a `TypeError`, which
propagates. Returns the selected model (the configured default when no
token is found) and the possibly-rewritten message list. -/
def scanGo (dft : String) : List Msg → Except PyErr (String × List Msg)
  | [] => .ok (dft, [])
  | m :: rest =>
    match m.content with
    | none => .error .typeError
    | some s =>
      match stripFirstToken s with
      | some (w, s2) => .ok (w, withContent m (some s2) :: rest)
      | none => do
        let (mod, rest2) ← scanGo dft rest
        .ok (mod, m :: rest2)

/-! ## Stream consumption (`chat_gpt_request`, `bot.py:148-186`)

One normalized chunk (the output of `AIService.process_chunk`) carries an
optional text delta, optional tool-call fragments, and an optional finish
reason; the embedded chunk also records the wall-clock time at which the
loop body observes it (the value `time.time()` would return there),
since the throttling rule compares such times. -/

/-- One tool-call fragment as delivered inside an OpenAI stream chunk. -/
structure Fragment where
  id : Option String
  fnName : Option String
  fnArguments : Option String
deriving DecidableEq

/-- One normalized stream chunk with its observation time. -/
structure TChunk where
  content : Option String
  toolCalls : Option (List Fragment)
  finishReason : Option String
  time : ℚ
deriving DecidableEq

/-- Accumulated name and argument buffer for one tool-call id
(`collected_functions` values, `bot.py:162-167`). -/
structure CollectedFn where
  fnName : String
  fnArguments : String
deriving DecidableEq

/-- Insert or overwrite a keyed entry, keeping the position of an
existing key (Python dict assignment). -/
def upsertFn (col : List (String × CollectedFn)) (k : String) (v : CollectedFn) :
    List (String × CollectedFn) :=
  if (col.map Prod.fst).contains k then
    col.map (fun p => if p.1 = k then (k, v) else p)
  else col ++ [(k, v)]

/-- Association-list lookup for `collected_functions`. -/
def lookupFn : List (String × CollectedFn) → String → Option CollectedFn
  | [], _ => none
  | (k, v) :: rest, key => if k = key then some v else lookupFn rest key

/-- Ingestion of one tool-call fragment (`bot.py:158-167`).  `cur` is the
function-scoped `tool_call_id` variable: reading it before any fragment
carried an id is a `NameError`; appending arguments for an id that never
carried a name is a `KeyError`. -/
def ingestOne (cur : Option String) (col : List (String × CollectedFn)) (f : Fragment) :
    Except PyErr (Option String × List (String × CollectedFn)) := do
  let cur := match f.id with
    | some i => some i
    | none => cur
  let col ← match f.fnName with
    | some n =>
      match cur with
      | some cid => Except.ok (upsertFn col cid ⟨n, ""⟩)
      | none => Except.error .nameError
    | none => Except.ok col
  match f.fnArguments with
  | some a =>
    match cur with
    | some cid =>
      match lookupFn col cid with
      | some entry => .ok (cur, upsertFn col cid ⟨entry.fnName, entry.fnArguments ++ a⟩)
      | none => .error .keyError
    | none => .error .nameError
  | none => .ok (cur, col)

/-- Ingestion of all fragments of one chunk, in arrival order.  An absent
or empty fragment list is skipped by the `if tool_calls:` truthiness test,
which coincides with folding over the empty list. -/
def ingestFragments (cur : Option String) (col : List (String × CollectedFn))
    (fs : List Fragment) : Except PyErr (Option String × List (String × CollectedFn)) :=
  fs.foldlM (fun s f => ingestOne s.1 s.2 f) (cur, col)

/-- Python truthiness of the optional strings `chunk_message` and
`finish_reason`: `None` and `""` are falsy. -/
def truthyOpt : Option String → Bool
  | none => false
  | some s => !(s == "")

/-- One emitted edit of the streaming loop, with the recorded emission
time (`self._last_edit_time = time.time()`, `bot.py:178`) and the finish
reason of the chunk that triggered it. -/
structure Edit where
  time : ℚ
  text : String
  finReason : Option String
deriving DecidableEq

/-- State of the streaming loop: the `tool_call_id` variable, the
`collected_functions` dict, the `collected_messages` list, the
`_last_edit_time` attribute (an `Option` because the attribute may be
unset, and shared across responses since it lives on `self`), and the
trace of edits emitted so far. -/
structure StreamState where
  curId : Option String
  collected : List (String × CollectedFn)
  texts : List String
  lastEdit : Option ℚ
  edits : List Edit
deriving DecidableEq

/-- Emission of one edit (`bot.py:178-186`): record the time, join the
collected messages, suffix an ellipsis while the finish reason is falsy
or the tool-call marker, and append the edit. -/
def emitEdit (st : StreamState) (c : TChunk) : StreamState :=
  let base := String.join st.texts
  let text :=
    if truthyOpt c.finishReason = false ∨ c.finishReason = some "tool_calls" then base ++ "…"
    else base
  ⟨st.curId, st.collected, st.texts, some c.time, st.edits ++ [⟨c.time, text, c.finishReason⟩]⟩

/-- One iteration of the streaming loop body (`bot.py:152-186`): ingest
tool-call fragments, append a truthy text delta, then either skip
(throttled: less than 1 second since the previous recorded edit time and
a falsy finish reason) or emit an edit. -/
def processChunk (st : StreamState) (c : TChunk) : Except PyErr StreamState := do
  let (cid, col) ← ingestFragments st.curId st.collected (c.toolCalls.getD [])
  let texts := if truthyOpt c.content then st.texts ++ [c.content.getD ""] else st.texts
  let st2 : StreamState := ⟨cid, col, texts, st.lastEdit, st.edits⟩
  match st.lastEdit with
  | some t =>
    if c.time - t < 1 ∧ truthyOpt c.finishReason = false then .ok st2
    else .ok (emitEdit st2 c)
  | none => .ok (emitEdit st2 c)

/-- The whole streaming loop over the chunk sequence of one response,
starting from the ambient `_last_edit_time` value. -/
def runLoop (init : Option ℚ) (chunks : List TChunk) : Except PyErr StreamState :=
  chunks.foldlM processChunk ⟨none, [], [], init, []⟩

/-- The full sequence of edit texts emitted for a response that finishes
with no collected tool calls: the loop edits, then the single final edit
of `bot.py:235-237`, whose text is the bare join of the collected
messages (no ellipsis is appended there). -/
def noToolTrace (st : StreamState) : List String :=
  st.edits.map Edit.text ++ [String.join st.texts]

/-! ## Tool phase (`chat_gpt_request`, `bot.py:188-234`) -/

/-- The arguments value bound to `function_args` before dispatch
(`bot.py:200-205`): the parsed JSON object with the requesting user
injected, or the empty Python list the `except` branch substitutes when
`json.loads` fails or the parsed value rejects item assignment. -/
inductive FnArgs where
  | dict (kvs : List (String × Json)) : FnArgs
  | emptyList : FnArgs

/-- Insert or overwrite a key in a JSON object, keeping the position of
an existing key (Python dict item assignment). -/
def upsertJson (kvs : List (String × Json)) (k : String) (v : Json) :
    List (String × Json) :=
  if (kvs.map Prod.fst).contains k then
    kvs.map (fun p => if p.1 = k then (k, v) else p)
  else kvs ++ [(k, v)]

/-- Evaluation of `function_args` for one call (`bot.py:200-205`):
`json.loads` then `function_args["user"] = sender_name`; any failure
(malformed JSON, or a non-dict value rejecting item assignment) is caught
and replaced by the empty list. -/
def evalArgs (sender : String) (raw : String) : FnArgs :=
  match parseJson raw with
  | .ok (.obj kvs) => .dict (upsertJson kvs "user" (.str sender))
  | _ => .emptyList

/-- `json.dumps(function_args)` at `bot.py:222`. -/
def dumpsFnArgs : FnArgs → String
  | .dict kvs => dumpsJson (.obj kvs)
  | .emptyList => "[]"

/-- The state of the `available_functions` variable: initially the dict
of the two registered tools (`bot.py:195-198`); the `except` handler at
`bot.py:211` rebinds it to the *string* `str(list(available_functions.keys()))`. -/
inductive Avail where
  | table : Avail
  | clobbered (s : String) : Avail
deriving DecidableEq

/-- The string the handler binds on the first failure. -/
def availKeysStr : String :=
  "[\x27weather\x27, \x27fetch_electricity_prices\x27]"

/-- The registered tool names. -/
def registeredTools : List String :=
  ["weather", "fetch_electricity_prices"]

/-- Message template of a captured dispatch failure
(`f"Function error: {e}"`, `bot.py:212`). -/
def fnErrText (e : String) : String :=
  "Function error: " ++ e

/-- Dispatch of one collected call (`bot.py:200-212`), returning the new
`available_functions` state, the `function_args` value, and the
`function_response` text.  The paths mirror the source exactly:

* a registered name with dict arguments invokes the tool implementation
  `impl` (an external network call, instantiated concretely in theorems)
  and captures its exception into an error text, rebinding
  `available_functions` to a string in passing;
* a registered name with the empty-list arguments raises a `TypeError` at
  `f(**function_args)`, captured the same way;
* an unregistered name raises a `KeyError` at the table lookup, captured
  the same way (`str(KeyError)` is the quoted name);
* once `available_functions` is a string, the lookup raises a
  `TypeError`, and the handler itself then raises an uncaught
  `AttributeError` calling `.keys()` on a string, aborting the loop. -/
def dispatchCall (impl : String → List (String × Json) → Except String String)
    (sender : String) (avail : Avail) (f : CollectedFn) :
    Except PyErr (Avail × FnArgs × String) :=
  let args := evalArgs sender f.fnArguments
  match avail with
  | .clobbered _ => .error .attributeError
  | .table =>
    if registeredTools.contains f.fnName then
      match args with
      | .emptyList =>
        .ok (.clobbered availKeysStr, args,
          fnErrText "argument after ** must be a mapping, not list")
      | .dict kvs =>
        match impl f.fnName kvs with
        | .ok r => .ok (.table, args, r)
        | .error e => .ok (.clobbered availKeysStr, args, fnErrText e)
    else
      .ok (.clobbered availKeysStr, args, fnErrText ("\x27" ++ f.fnName ++ "\x27"))

/-- The assistant message carrying one tool-call descriptor
(`bot.py:214-225`): role `assistant`, content `None`. -/
def assistantToolMsg (tid fname argDump : String) : Msg :=
  ⟨"assistant", none, none, none, [⟨tid, "function", fname, argDump⟩]⟩

/-- The tool message carrying one tool result (`bot.py:226-231`). -/
def toolMsg (tid fname resp : String) : Msg :=
  ⟨"tool", some fname, some resp, some tid, []⟩

/-- The per-call dispatch loop (`bot.py:200-231`): dispatch each
collected call in order and append its assistant/tool message pair to the
conversation, propagating any uncaught exception. -/
def toolLoop (impl : String → List (String × Json) → Except String String)
    (sender : String) :
    Avail → List Msg → List (String × CollectedFn) → Except PyErr (List Msg)
  | _, msgs, [] => .ok msgs
  | avail, msgs, (tid, f) :: rest => do
    let (avail2, args, resp) ← dispatchCall impl sender avail f
    toolLoop impl sender avail2
      (msgs ++ [assistantToolMsg tid f.fnName (dumpsFnArgs args), toolMsg tid f.fnName resp])
      rest

/-- The combined status edit text (`bot.py:189-193`): for every collected
call, `json.loads` its argument buffer — *unguarded*, so a malformed
buffer raises an uncaught `JSONDecodeError` here — and interpolate the
Python repr of the parsed value. -/
def statusText (collected : List (String × CollectedFn)) : Except PyErr String :=
  collected.foldlM
    (fun acc p =>
      match parseJson p.2.fnArguments with
      | .ok j => .ok (acc ++ p.2.fnName ++ "(" ++ pyRepr j ++ ") ")
      | .error _ => .error .jsonDecode)
    "Calling functions: "

/-- The whole tool phase on a non-empty `collected_functions`
(`bot.py:188-234`): compute the combined status edit, run the dispatch
loop appending message pairs, then recurse via
`chat_gpt_request("", messages[:-1], ...)`.  Returns the status edit
text, the conversation passed to the recursive call (note the
`dropLast`), and the query passed to it (the empty string). -/
def toolPhase (impl : String → List (String × Json) → Except String String)
    (sender : String) (msgs : List Msg) (collected : List (String × CollectedFn)) :
    Except PyErr (String × List Msg × String) := do
  let status ← statusText collected
  let msgs2 ← toolLoop impl sender .table msgs collected
  .ok (status, msgs2.dropLast, "")

/-! ## Conversation resolution (`get_conversation_history`, `bot.py:239-272`) -/

/-- One Matrix event as `get_conversation_history` reads it. -/
structure MEvent where
  evType : String
  sender : String
  body : String
  formattedBody : Option String
  inReplyTo : Option String
deriving DecidableEq

/-- The room's event store, as the transport exposes it to
`client.get_event`: an association from event id to event.  A missing id
models a fetch failure (the call raises). -/
def fetchEvent : List (String × MEvent) → String → Option MEvent
  | [], _ => none
  | (k, v) :: rest, key => if k = key then some v else fetchEvent rest key

/-- String-keyed association lookup for the `assistant_replies` cache. -/
def lookupStr : List (String × String) → String → Option String
  | [], _ => none
  | (k, v) :: rest, key => if k = key then some v else lookupStr rest key

/-- The `formatted_body if formatted_body else body` selection at
`bot.py:264` (Python truthiness: `None` and `""` fall back). -/
def fbOrBody (ev : MEvent) : String :=
  match ev.formattedBody with
  | some fb => if fb = "" then ev.body else fb
  | none => ev.body

/-- Classification of one visited event (`bot.py:256-265`): the bot's own
events become `assistant` messages whose content prefers the
`assistant_replies` cache; human events become `user` messages with the
bot self-mention markup stripped from the rendered body.  The
`userIdPattern.sub` regex substitution over transport markup is supplied
as the function `strip`. -/
def msgOfEvent (strip : String → String) (replies : List (String × String))
    (bot : String) (eid : String) (ev : MEvent) : Msg :=
  let nm := filteredName ev.sender
  if ev.sender = bot then
    ⟨"assistant", some nm, some ((lookupStr replies eid).getD ev.body), none, []⟩
  else
    ⟨"user", some nm, some (strip (fbOrBody ev)), none, []⟩

/-- The backward reply-chain walk of `bot.py:254-272`, embedded with a
fuel bound standing for the unbounded `while` (theorems supply fuel at
least the chain length).  Each visited `m.room.message` event is
prepended to the history; a missing event makes `client.get_event` raise,
and since the walk has no handler the error propagates; an absent or
falsy `in_reply_to` id ends the walk normally. -/
def resolveWalk (strip : String → String) (replies : List (String × String))
    (bot : String) (store : List (String × MEvent)) :
    Nat → String → List Msg → Except Unit (List Msg)
  | 0, _, _ => .error ()
  | fuel + 1, eid, acc =>
    if eid = "" then .ok acc
    else
      match fetchEvent store eid with
      | none => .error ()
      | some ev =>
        let acc2 :=
          if ev.evType = "m.room.message" then msgOfEvent strip replies bot eid ev :: acc
          else acc
        match ev.inReplyTo with
        | some pid => resolveWalk strip replies bot store fuel pid acc2
        | none => .ok acc2

/-- `get_conversation_history`: walk backward from the given event with
an empty accumulator. -/
def getConversationHistory (strip : String → String) (replies : List (String × String))
    (bot : String) (store : List (String × MEvent)) (fuel : Nat) (eid : String) :
    Except Unit (List Msg) :=
  resolveWalk strip replies bot store fuel eid []

/-- A reply chain listed newest-first: each event replies to the next
entry's id, and the last event has no reply relation. -/
def Linked : List (String × MEvent) → Prop
  | [] => True
  | [(_, e)] => e.inReplyTo = none
  | (_, e) :: p :: rest => e.inReplyTo = some p.1 ∧ Linked (p :: rest)

/-- A reply chain listed newest-first whose last event replies to the
dangling id `mid` (the unreachable event). -/
def LinkedTo : List (String × MEvent) → String → Prop
  | [], _ => True
  | [(_, e)], mid => e.inReplyTo = some mid
  | (_, e) :: p :: rest, mid => e.inReplyTo = some p.1 ∧ LinkedTo (p :: rest) mid

/-! ## The reply cache (`self.assistant_replies`, `bot.py:24-25` and `bot.py:341-345`) -/

/-- The keys of the cache in insertion order. -/
def cacheKeys {K V : Type} (c : List (K × V)) : List K :=
  c.map Prod.fst

/-- Python dict assignment `self.assistant_replies[event_id] = text`
(`bot.py:341`): overwrite in place if the key is present, else append. -/
def cacheWrite {K V : Type} [DecidableEq K] (c : List (K × V)) (k : K) (v : V) :
    List (K × V) :=
  if k ∈ cacheKeys c then c.map (fun p => if p.1 = k then (k, v) else p)
  else c ++ [(k, v)]

/-- The eviction step of `_edit` (`bot.py:343-345`): delete the first
(oldest-inserted) key when the size exceeds the bound. -/
def cacheEvict {K V : Type} (bound : Nat) (c : List (K × V)) : List (K × V) :=
  if bound < c.length then c.drop 1 else c

/-- One write to the reply cache (`_edit`, `bot.py:341-345`): dict
assignment followed by the eviction check. -/
def cachePut {K V : Type} [DecidableEq K] (bound : Nat) (c : List (K × V))
    (k : K) (v : V) : List (K × V) :=
  cacheEvict bound (cacheWrite c k v)

/-- Fold a sequence of writes into the cache. -/
def cachePutAll {K V : Type} [DecidableEq K] (bound : Nat) (c : List (K × V))
    (kvs : List (K × V)) : List (K × V) :=
  kvs.foldl (fun s kv => cachePut bound s kv.1 kv.2) c

/-! ## Lemmas about the reply cache -/

/-- Writing a fresh key appends it and, exactly when the cache was full,
evicts the oldest key. -/
theorem cachePut_absent {K V : Type} [DecidableEq K] {bound : Nat}
    {c : List (K × V)} {k : K} (v : V) (hk : k ∉ cacheKeys c) :
    cachePut bound c k v
      = if bound < c.length + 1 then (c ++ [(k, v)]).drop 1 else c ++ [(k, v)] := by
  have hw : cacheWrite c k v = c ++ [(k, v)] := if_neg hk
  have hl : (c ++ [(k, v)]).length = c.length + 1 := by simp
  unfold cachePut cacheEvict
  rw [hw, hl]

/-- Writing a present key rewrites the value in place. -/
theorem cachePut_present {K V : Type} [DecidableEq K] {bound : Nat}
    {c : List (K × V)} {k : K} (v : V) (hk : k ∈ cacheKeys c) (hb : c.length ≤ bound) :
    cachePut bound c k v = c.map (fun p => if p.1 = k then (k, v) else p) := by
  have hw : cacheWrite c k v = c.map (fun p => if p.1 = k then (k, v) else p) := if_pos hk
  have hl : (c.map (fun p => if p.1 = k then (k, v) else p)).length = c.length := by simp
  unfold cachePut cacheEvict
  rw [hw, hl, if_neg (by omega)]

/-- Each write of a fresh key into a full-or-below cache keeps the keys
equal to a suffix of the full insertion sequence: the generalized FIFO
invariant of `cachePut`. -/
theorem cachePutAll_keys {K V : Type} [DecidableEq K] (bound : Nat) :
    ∀ (kvs c : List (K × V)),
      (cacheKeys c ++ cacheKeys kvs).Nodup → c.length ≤ bound →
      cacheKeys (cachePutAll bound c kvs)
        = (cacheKeys c ++ cacheKeys kvs).drop (c.length + kvs.length - bound) := by
  intro kvs
  induction kvs with
  | nil =>
    intro c _ hle
    have hz : c.length - bound = 0 := by omega
    simp [cachePutAll, cacheKeys, hz]
  | cons kv rest ih =>
    intro c hnd hle
    obtain ⟨k, v⟩ := kv
    have hknotin : k ∉ cacheKeys c := by
      have h1 : (cacheKeys c).Disjoint (cacheKeys ((k, v) :: rest)) :=
        (List.nodup_append.mp hnd).2.2
      intro hk
      exact h1 hk (by simp [cacheKeys])
    have hstep : cachePutAll bound c ((k, v) :: rest)
        = cachePutAll bound (cachePut bound c k v) rest := rfl
    have hassoc : cacheKeys c ++ cacheKeys ((k, v) :: rest)
        = (cacheKeys c ++ [k]) ++ cacheKeys rest := by
      simp [cacheKeys]
    by_cases hfull : c.length = bound
    · -- the write evicts the oldest key
      have hcp : cachePut bound c k v = (c ++ [(k, v)]).drop 1 := by
        rw [cachePut_absent v hknotin, if_pos (by omega)]
      have hckeys : cacheKeys ((c ++ [(k, v)]).drop 1) = (cacheKeys c ++ [k]).drop 1 := by
        simp [cacheKeys]
      have hlen : ((c ++ [(k, v)]).drop 1).length = bound := by
        simp [hfull]
      have hnd2 : (cacheKeys ((c ++ [(k, v)]).drop 1) ++ cacheKeys rest).Nodup := by
        rw [hckeys]
        refine List.Nodup.sublist ?_ (hassoc ▸ hnd)
        exact (List.drop_sublist 1 (cacheKeys c ++ [k])).append_right _
      have hih := ih ((c ++ [(k, v)]).drop 1) hnd2 (le_of_eq hlen)
      rw [hstep, hcp, hih, hckeys, hlen]
      have hd1 : ((cacheKeys c ++ [k]) ++ cacheKeys rest).drop 1
          = (cacheKeys c ++ [k]).drop 1 ++ cacheKeys rest :=
        List.drop_append_of_le_length (by simp)
      rw [← hd1, List.drop_drop, hassoc]
      congr 1
      simp only [List.length_cons]
      omega
    · -- still room: the write only appends
      have hcp : cachePut bound c k v = c ++ [(k, v)] := by
        rw [cachePut_absent v hknotin, if_neg (by omega)]
      have hkeq : cacheKeys (c ++ [(k, v)]) = cacheKeys c ++ [k] := by simp [cacheKeys]
      have hnd2 : (cacheKeys (c ++ [(k, v)]) ++ cacheKeys rest).Nodup := by
        rw [hkeq]
        exact hassoc ▸ hnd
      have hlen2 : (c ++ [(k, v)]).length ≤ bound := by
        simp only [List.length_append, List.length_cons, List.length_nil]
        omega
      have hih := ih (c ++ [(k, v)]) hnd2 hlen2
      rw [hstep, hcp, hih, hkeq, ← hassoc]
      congr 1
      simp only [List.length_append, List.length_cons, List.length_nil]
      omega

/-- C2: The ReplyCache holds at most 100 entries and evicts in strict
FIFO insertion order: after inserting 150 distinct keys into the empty
cache, exactly the 100 most-recently-inserted keys are present (in
insertion order) and the 50 oldest-inserted keys are absent. -/
theorem c2_cache_fifo {K V : Type} [DecidableEq K] (kvs : List (K × V))
    (hnd : (cacheKeys kvs).Nodup) (hlen : kvs.length = 150) :
    cacheKeys (cachePutAll 100 [] kvs) = (cacheKeys kvs).drop 50 ∧
    (∀ k ∈ (cacheKeys kvs).drop 50, k ∈ cacheKeys (cachePutAll 100 [] kvs)) ∧
    (∀ k ∈ (cacheKeys kvs).take 50, k ∉ cacheKeys (cachePutAll 100 [] kvs)) := by
  have hmain : cacheKeys (cachePutAll 100 ([] : List (K × V)) kvs)
      = (cacheKeys kvs).drop 50 := by
    have h0 : cacheKeys ([] : List (K × V)) = [] := rfl
    have := cachePutAll_keys 100 kvs ([] : List (K × V)) (by simpa [h0] using hnd)
      (by simp)
    simpa [h0, hlen] using this
  refine ⟨hmain, ?_, ?_⟩
  · intro k hk
    rw [hmain]
    exact hk
  · intro k hk hk2
    rw [hmain] at hk2
    have hsplit : (cacheKeys kvs).take 50 ++ (cacheKeys kvs).drop 50 = cacheKeys kvs :=
      List.take_append_drop 50 (cacheKeys kvs)
    have hnd2 : ((cacheKeys kvs).take 50 ++ (cacheKeys kvs).drop 50).Nodup := by
      rw [hsplit]
      exact hnd
    exact (List.nodup_append.mp hnd2).2.2 hk hk2

/-- The concrete insertion sequence for the C2 witness: 150 distinct
numeric keys. -/
def w150 : List (Nat × Unit) :=
  (List.range 150).map (fun n => (n, ()))

/-- Witness for C2 at the concrete sequence of 150 distinct keys. -/
theorem c2_cache_fifo_witness :
    cacheKeys (cachePutAll 100 [] w150) = (cacheKeys w150).drop 50 ∧
    (∀ k ∈ (cacheKeys w150).drop 50, k ∈ cacheKeys (cachePutAll 100 [] w150)) ∧
    (∀ k ∈ (cacheKeys w150).take 50, k ∉ cacheKeys (cachePutAll 100 [] w150)) :=
  c2_cache_fifo w150
    (by
      have h1 : cacheKeys w150 = List.range 150 := by
        unfold w150 cacheKeys
        rw [List.map_map]
        exact List.map_id _
      rw [h1]
      exact List.nodup_range 150)
    (by simp [w150])

/-- C10: Writing under a key that is already present replaces the stored
value without changing the key order or the size and without evicting;
and a key can only disappear from the cache when the written key was
previously absent and the cache was exactly full. -/
theorem c10_cache_update {K V : Type} [DecidableEq K] (bound : Nat)
    (c : List (K × V)) (k : K) (v : V) (hb : c.length ≤ bound) :
    (k ∈ cacheKeys c →
      cacheKeys (cachePut bound c k v) = cacheKeys c ∧
      (cachePut bound c k v).length = c.length ∧
      (k, v) ∈ cachePut bound c k v) ∧
    (∀ k2 ∈ cacheKeys c, k2 ∉ cacheKeys (cachePut bound c k v) →
      k ∉ cacheKeys c ∧ c.length = bound) := by
  have hupd : ∀ (hk : k ∈ cacheKeys c),
      cachePut bound c k v = c.map (fun p => if p.1 = k then (k, v) else p) :=
    fun hk => cachePut_present v hk hb
  have hkeys : ∀ (hk : k ∈ cacheKeys c),
      cacheKeys (cachePut bound c k v) = cacheKeys c := by
    intro hk
    rw [hupd hk]
    unfold cacheKeys
    rw [List.map_map]
    refine List.map_congr_left ?_
    intro p _
    by_cases h : p.1 = k <;> simp [h, Function.comp]
  constructor
  · intro hk
    refine ⟨hkeys hk, ?_, ?_⟩
    · rw [hupd hk]; simp
    · rw [hupd hk]
      obtain ⟨p, hp, hpk⟩ := List.mem_map.mp hk
      refine List.mem_map.mpr ⟨p, hp, ?_⟩
      simp [hpk]
  · intro k2 hk2 hnot
    by_cases hk : k ∈ cacheKeys c
    · exact absurd (hkeys hk ▸ hk2) hnot
    · refine ⟨hk, ?_⟩
      by_cases hfull : c.length = bound
      · exact hfull
      · exfalso
        have hlt : c.length < bound := lt_of_le_of_ne hb hfull
        have hcp : cachePut bound c k v = c ++ [(k, v)] := by
          rw [cachePut_absent v hk, if_neg (by omega)]
        apply hnot
        rw [hcp]
        unfold cacheKeys
        rw [List.map_append]
        exact List.mem_append_left _ hk2

/-- Witness for C10: updating the present key 1 in a two-entry cache. -/
theorem c10_cache_update_witness :
    ((1 : Nat) ∈ cacheKeys [(1, "a"), (2, "b")] →
      cacheKeys (cachePut 100 [(1, "a"), (2, "b")] 1 "z") = cacheKeys [(1, "a"), (2, "b")] ∧
      (cachePut 100 [(1, "a"), (2, "b")] 1 "z").length = ([(1, "a"), (2, "b")] : List (Nat × String)).length ∧
      ((1 : Nat), "z") ∈ cachePut 100 [(1, "a"), (2, "b")] 1 "z") ∧
    (∀ k2 ∈ cacheKeys [((1 : Nat), "a"), (2, "b")],
      k2 ∉ cacheKeys (cachePut 100 [(1, "a"), (2, "b")] 1 "z") →
      (1 : Nat) ∉ cacheKeys [(1, "a"), (2, "b")] ∧
      ([(1, "a"), (2, "b")] : List (Nat × String)).length = 100) :=
  c10_cache_update 100 [(1, "a"), (2, "b")] 1 "z" (by simp)

/-! ## The tool-call fragment round trip (C9) -/

/-- C9: Ingesting the two fragments of the example stream assembles
exactly one tool call with id `"1"`, name `"weather"`, and an argument
buffer that parses to the JSON object with `location` mapped to
`"Espoo"`. -/
theorem c9_fragment_roundtrip :
    ingestFragments none []
      [⟨some "1", some "weather", some "\x7b\"loc"⟩,
       ⟨some "1", none, some "ation\":\"Espoo\"\x7d"⟩]
      = .ok (some "1", [("1", ⟨"weather", "\x7b\"location\":\"Espoo\"\x7d"⟩)]) ∧
    parseJson "\x7b\"location\":\"Espoo\"\x7d" = .ok (.obj [("location", .str "Espoo")]) :=
  ⟨rfl, rfl⟩

/-! ## Behaviour of the tool phase at failing inputs (C4, C5, C6) -/

/-- C4 (code bug): a tool call whose accumulated argument text fails to
parse as JSON is *not* captured per call — the unguarded `json.loads` in
the combined-status-edit loop (`bot.py:191`) raises an uncaught
`JSONDecodeError`, aborting the status edit and the whole tool phase
before any dispatch happens. -/
theorem c4_malformed_args_abort :
    toolPhase (fun _ _ => .ok "sunny") "@alice:hs"
      [devMsg "Monday" "12:00", userMsg "alice" "weather in Espoo"]
      [("1", ⟨"weather", "\x7b\"loc"⟩)] = .error .jsonDecode := rfl

/-- C5 (code bug): after one captured failure (here, an unknown tool
name in the first call) the handler rebinds `available_functions` to a
string, so dispatching the next — registered — call raises a `TypeError`
at the lookup, whose own handler raises an uncaught `AttributeError`:
the loop aborts instead of invoking the later registered call. -/
theorem c5_clobbered_lookup_abort :
    toolPhase (fun _ _ => .ok "sunny") "@alice:hs"
      [devMsg "Monday" "12:00", userMsg "alice" "weather in Espoo"]
      [("1", ⟨"frobnicate", "\x7b\x7d"⟩),
       ("2", ⟨"weather", "\x7b\"location\": \"Espoo\"\x7d"⟩)]
      = .error .attributeError := rfl

/-- C6 (code bug): after a single successful weather call the recursion
is entered with `messages[:-1]`, so the conversation passed to the
recursive dispatch ends with the assistant tool-call descriptor and the
tool message carrying the call's result has been dropped (no message of
role `tool` is present at all); the new query is the empty string. -/
theorem c6_recursion_drops_last_tool_msg :
    toolPhase (fun _ _ => .ok "sunny") "@alice:hs"
      [devMsg "Monday" "12:00", userMsg "alice" "weather in Espoo"]
      [("1", ⟨"weather", "\x7b\"location\": \"Espoo\"\x7d"⟩)]
      = .ok ("Calling functions: weather(\x7b\x27location\x27: \x27Espoo\x27\x7d) ",
             [devMsg "Monday" "12:00", userMsg "alice" "weather in Espoo",
              assistantToolMsg "1" "weather"
                "\x7b\"location\": \"Espoo\", \"user\": \"@alice:hs\"\x7d"],
             "") ∧
    ∀ m ∈ [devMsg "Monday" "12:00", userMsg "alice" "weather in Espoo",
           assistantToolMsg "1" "weather"
             "\x7b\"location\": \"Espoo\", \"user\": \"@alice:hs\"\x7d"],
      m.role ≠ "tool" :=
  ⟨rfl, by decide⟩

/-! ## Conversation resolution: lemmas and claim C3 -/

/-- Association lookup finds the stored event of any entry when the ids
are distinct. -/
theorem fetchEvent_mem {store : List (String × MEvent)} {k : String} {e : MEvent}
    (hnd : (store.map Prod.fst).Nodup) (hmem : (k, e) ∈ store) :
    fetchEvent store k = some e := by
  induction store with
  | nil => cases hmem
  | cons p rest ih =>
    obtain ⟨k0, e0⟩ := p
    rcases List.mem_cons.mp hmem with heq | hmem2
    · injection heq with h1 h2
      subst h1
      subst h2
      simp [fetchEvent]
    · have hk : k ≠ k0 := by
        rintro rfl
        have : k ∈ rest.map Prod.fst := List.mem_map.mpr ⟨(k, e), hmem2, rfl⟩
        exact (List.nodup_cons.mp (by simpa using hnd)).1 this
      have := ih (List.nodup_cons.mp (by simpa using hnd)).2 hmem2
      simpa [fetchEvent, if_neg (Ne.symm hk)] using this

/-- Association lookup fails exactly on absent ids. -/
theorem fetchEvent_absent {store : List (String × MEvent)} {k : String}
    (h : k ∉ store.map Prod.fst) : fetchEvent store k = none := by
  induction store with
  | nil => rfl
  | cons p rest ih =>
    have hk : k ≠ p.1 := by
      rintro rfl
      exact h (by simp)
    have : k ∉ rest.map Prod.fst := fun hm => h (by simp [hm])
    simpa [fetchEvent, if_neg (Ne.symm hk)] using ih this

/-- One unfolding step of the fuelled walk. -/
theorem resolveWalk_succ (strip : String → String) (replies : List (String × String))
    (bot : String) (store : List (String × MEvent)) (fuel : Nat) (eid : String)
    (acc : List Msg) :
    resolveWalk strip replies bot store (fuel + 1) eid acc
      = if eid = "" then .ok acc
        else
          match fetchEvent store eid with
          | none => .error ()
          | some ev =>
            let acc2 :=
              if ev.evType = "m.room.message" then msgOfEvent strip replies bot eid ev :: acc
              else acc
            match ev.inReplyTo with
            | some pid => resolveWalk strip replies bot store fuel pid acc2
            | none => .ok acc2 := rfl

/-- The walk over a fully fetchable, linked chain of message events
succeeds and produces the visited messages in reverse visiting order on
top of the accumulator. -/
theorem resolveWalk_ok (strip : String → String) (replies : List (String × String))
    (bot : String) :
    ∀ (c : List (String × MEvent)) (store : List (String × MEvent)) (acc : List Msg),
      Linked c →
      (∀ p ∈ c, fetchEvent store p.1 = some p.2) →
      (∀ p ∈ c, p.2.evType = "m.room.message" ∧ p.1 ≠ "") →
      ∀ (k : String) (e : MEvent), c.head? = some (k, e) →
      resolveWalk strip replies bot store c.length k acc
        = .ok ((c.map (fun p => msgOfEvent strip replies bot p.1 p.2)).reverse ++ acc) := by
  intro c
  induction c with
  | nil => intro store acc _ _ _ k e h; cases h
  | cons p rest ih =>
    intro store acc hlink hfetch htype k e hhead
    obtain ⟨k0, e0⟩ := p
    simp only [List.head?_cons, Option.some.injEq, Prod.mk.injEq] at hhead
    obtain ⟨rfl, rfl⟩ := hhead
    have htp : e0.evType = "m.room.message" := (htype (k0, e0) (by simp)).1
    have hne : k0 ≠ "" := (htype (k0, e0) (by simp)).2
    have hf : fetchEvent store k0 = some e0 := hfetch (k0, e0) (by simp)
    rw [show ((k0, e0) :: rest).length = rest.length + 1 from rfl,
      resolveWalk_succ, if_neg hne]
    cases rest with
    | nil =>
      have hrt : e0.inReplyTo = none := hlink
      simp [hf, htp, hrt]
    | cons q rest2 =>
      obtain ⟨hrt, hlink2⟩ : e0.inReplyTo = some q.1 ∧ Linked (q :: rest2) := hlink
      have hrec := ih store (msgOfEvent strip replies bot k0 e0 :: acc) hlink2
        (fun r hr => hfetch r (by simp [hr])) (fun r hr => htype r (by simp [hr]))
        q.1 q.2 (by simp)
      simp only [List.length_cons] at hrec
      simp [hf, htp, hrt, hrec]

/-- The walk over a linked chain whose last event replies to an
unfetchable id propagates the fetch failure as an error. -/
theorem resolveWalk_err (strip : String → String) (replies : List (String × String))
    (bot : String) :
    ∀ (c : List (String × MEvent)) (store : List (String × MEvent)) (acc : List Msg)
      (mid : String),
      LinkedTo c mid →
      (∀ p ∈ c, fetchEvent store p.1 = some p.2) →
      (∀ p ∈ c, p.1 ≠ "") →
      mid ≠ "" →
      fetchEvent store mid = none →
      ∀ (k : String) (e : MEvent), c.head? = some (k, e) →
      resolveWalk strip replies bot store (c.length + 1) k acc = .error () := by
  intro c
  induction c with
  | nil => intro store acc mid _ _ _ _ _ k e h; cases h
  | cons p rest ih =>
    intro store acc mid hlink hfetch hne hmid hmiss k e hhead
    obtain ⟨k0, e0⟩ := p
    simp only [List.head?_cons, Option.some.injEq, Prod.mk.injEq] at hhead
    obtain ⟨rfl, rfl⟩ := hhead
    have hne0 : k0 ≠ "" := hne (k0, e0) (by simp)
    have hf : fetchEvent store k0 = some e0 := hfetch (k0, e0) (by simp)
    rw [show ((k0, e0) :: rest).length + 1 = (rest.length + 1) + 1 from rfl,
      resolveWalk_succ, if_neg hne0]
    cases rest with
    | nil =>
      have hrt : e0.inReplyTo = some mid := hlink
      have hstep : resolveWalk strip replies bot store 1 mid
          (if e0.evType = "m.room.message" then msgOfEvent strip replies bot k0 e0 :: acc
           else acc) = .error () := by
        rw [show (1 : Nat) = 0 + 1 from rfl, resolveWalk_succ, if_neg hmid]
        simp [hmiss]
      simp [hf, hrt, hstep]
    | cons q rest2 =>
      obtain ⟨hrt, hlink2⟩ : e0.inReplyTo = some q.1 ∧ LinkedTo (q :: rest2) mid := hlink
      have hrec := ih store
        (if e0.evType = "m.room.message" then msgOfEvent strip replies bot k0 e0 :: acc
         else acc)
        mid hlink2 (fun r hr => hfetch r (by simp [hr]))
        (fun r hr => hne r (by simp [hr])) hmid hmiss q.1 q.2 (by simp)
      simp only [List.length_cons] at hrec
      simp [hf, hrt, hrec]

/-- Counterexample input for C3: a single message event whose reply
target is absent from the store. -/
def cexEvent : MEvent :=
  ⟨"m.room.message", "@bob:hs", "hello", none, some "missing"⟩

/-- C3 counterexample: on a chain whose second event cannot be fetched,
conversation resolution does *not* return the prefix collected before
the failure — the `client.get_event` exception propagates
(`get_conversation_history` has no handler, `bot.py:254-272`), so the
resolution fails instead of producing the one collected message. -/
theorem c3_resolver_cex :
    getConversationHistory (fun s => s) [] "@bot:hs" [("a", cexEvent)] 2 "a" = .error () ∧
    getConversationHistory (fun s => s) [] "@bot:hs" [("a", cexEvent)] 2 "a"
      ≠ .ok [msgOfEvent (fun s => s) [] "@bot:hs" "a" cexEvent] :=
  ⟨rfl, fun h => Except.noConfusion h⟩

/-- C3 as amended: on a fully fetchable reply chain of N message events
(ids distinct and non-empty) the resolution returns exactly the N
messages in oldest-first order; but when fetching an event mid-walk
fails, the failure propagates as an error — the prefix collected before
the failure is discarded, not returned. -/
theorem c3_resolver_amended :
    (∀ (strip : String → String) (replies : List (String × String)) (bot k : String)
       (e : MEvent) (rest : List (String × MEvent)),
       Linked ((k, e) :: rest) →
       (((k, e) :: rest).map Prod.fst).Nodup →
       (∀ p ∈ (k, e) :: rest, p.2.evType = "m.room.message" ∧ p.1 ≠ "") →
       getConversationHistory strip replies bot ((k, e) :: rest) ((k, e) :: rest).length k
         = .ok ((((k, e) :: rest).map
             (fun p => msgOfEvent strip replies bot p.1 p.2)).reverse)) ∧
    (∀ (strip : String → String) (replies : List (String × String)) (bot k : String)
       (e : MEvent) (rest : List (String × MEvent)) (mid : String),
       LinkedTo ((k, e) :: rest) mid →
       (((k, e) :: rest).map Prod.fst).Nodup →
       (∀ p ∈ (k, e) :: rest, p.1 ≠ "") →
       mid ≠ "" →
       mid ∉ ((k, e) :: rest).map Prod.fst →
       getConversationHistory strip replies bot ((k, e) :: rest)
           (((k, e) :: rest).length + 1) k = .error ()) := by
  constructor
  · intro strip replies bot k e rest hlink hnd htype
    have := resolveWalk_ok strip replies bot ((k, e) :: rest) ((k, e) :: rest) []
      hlink (fun p hp => fetchEvent_mem hnd hp) htype k e (by simp)
    simpa [getConversationHistory] using this
  · intro strip replies bot k e rest mid hlink hnd hne hmid hmiss
    exact resolveWalk_err strip replies bot ((k, e) :: rest) ((k, e) :: rest) [] mid
      hlink (fun p hp => fetchEvent_mem hnd hp) hne hmid
      (fetchEvent_absent hmiss) k e (by simp)

/-- The two events of the C3 witness chain: the newest replies to the
oldest, which ends the chain. -/
def wEv1 : MEvent := ⟨"m.room.message", "@alice:hs", "hi there", none, some "a"⟩

/-- The oldest event of the C3 witness chain. -/
def wEv0 : MEvent := ⟨"m.room.message", "@bot:hs", "yo", none, none⟩

/-- An event for the failure part of the C3 witness, replying to the
dangling id `"gone"`. -/
def wEv2 : MEvent := ⟨"m.room.message", "@alice:hs", "hi there", none, some "gone"⟩

/-- Witness for the amended C3 at a concrete two-event chain (success
part) and a concrete one-event chain with an unreachable parent
(failure part). -/
theorem c3_resolver_amended_witness :
    getConversationHistory (fun s => s) [] "@bot:hs" [("b", wEv1), ("a", wEv0)] 2 "b"
      = .ok (([("b", wEv1), ("a", wEv0)].map
          (fun p => msgOfEvent (fun s => s) [] "@bot:hs" p.1 p.2)).reverse) ∧
    getConversationHistory (fun s => s) [] "@bot:hs" [("b", wEv2)] 2 "b" = .error () :=
  ⟨c3_resolver_amended.1 (fun s => s) [] "@bot:hs" "b" wEv1 [("a", wEv0)]
      ⟨rfl, rfl⟩ (by decide) (by decide),
   c3_resolver_amended.2 (fun s => s) [] "@bot:hs" "b" wEv2 [] "gone"
      rfl (by decide) (by decide) (by decide) (by decide)⟩

/-! ## The model-override scan: lemmas and claims C7 and C8 -/

/-- A string without a bang has no `![\w-]+` match. -/
theorem findToken_of_no_bang : ∀ l : List Char, '!' ∉ l → findToken l = none := by
  intro l
  induction l with
  | nil => intro _; rfl
  | cons c rest ih =>
    intro h
    have hc : ¬ c = '!' := fun hc => h (hc ▸ List.mem_cons_self c rest)
    have hr : '!' ∉ rest := fun hr => h (List.mem_cons_of_mem c hr)
    simp [findToken, hc, ih hr]

/-- A string without a bang is left alone by the override scan. -/
theorem stripFirstToken_of_no_bang (s : String) (h : '!' ∉ s.data) :
    stripFirstToken s = none := by
  unfold stripFirstToken
  rw [findToken_of_no_bang s.data h]
  rfl

/-- The scan passes unchanged over a prefix of messages none of whose
contents match the pattern. -/
theorem scanGo_skip (d : String) :
    ∀ (pre msgs : List Msg) (res : String × List Msg),
      scanGo d msgs = .ok res →
      (∀ p ∈ pre, ∃ s, p.content = some s ∧ stripFirstToken s = none) →
      scanGo d (pre ++ msgs) = .ok (res.1, pre ++ res.2) := by
  intro pre
  induction pre with
  | nil => intro msgs res h _; simpa using h
  | cons p pre2 ih =>
    intro msgs res h hpre
    obtain ⟨s, hs, hsn⟩ := hpre p (by simp)
    have := ih msgs res h (fun r hr => hpre r (by simp [hr]))
    simp only [List.cons_append, scanGo, hs, hsn, List.append_eq]
    rw [this]
    rfl

/-- The scan extracts nothing and rewrites nothing when no message
content matches the pattern. -/
theorem scanGo_id (d : String) :
    ∀ msgs : List Msg,
      (∀ m ∈ msgs, ∃ s, m.content = some s ∧ stripFirstToken s = none) →
      scanGo d msgs = .ok (d, msgs) := by
  intro msgs
  induction msgs with
  | nil => intro _; rfl
  | cons m rest ih =>
    intro h
    obtain ⟨s, hs, hsn⟩ := h m (by simp)
    have := ih (fun r hr => h r (by simp [hr]))
    simp only [scanGo, hs, hsn, this]
    rfl

/-- C8: When the message set carries exactly one occurrence of a
model-override token (one message matches, the others do not, and the
match site holds no second token), the top-level scan extracts that token
exactly once — it becomes the selected model in place of the configured
default, its occurrence is removed from that message's
whitespace-trimmed content, no message of the resulting set contains a
token any more (so it never reappears in a later message's content), and
re-running the scan — as the recursive continuation does — extracts
nothing and changes nothing. -/
theorem c8_override_once (d : String) (pre post : List Msg) (m : Msg)
    (mc w rest2 : String)
    (hpre : ∀ p ∈ pre, ∃ s, p.content = some s ∧ stripFirstToken s = none)
    (hm : m.content = some mc)
    (hstrip : stripFirstToken mc = some (w, rest2))
    (hrest : stripFirstToken rest2 = none)
    (hpost : ∀ p ∈ post, ∃ s, p.content = some s ∧ stripFirstToken s = none) :
    scanGo d (pre ++ m :: post) = .ok (w, pre ++ withContent m (some rest2) :: post) ∧
    (∀ p ∈ pre ++ withContent m (some rest2) :: post,
      ∀ s, p.content = some s → stripFirstToken s = none) ∧
    (∀ d2, scanGo d2 (pre ++ withContent m (some rest2) :: post)
      = .ok (d2, pre ++ withContent m (some rest2) :: post)) := by
  have hall : ∀ p ∈ pre ++ withContent m (some rest2) :: post,
      ∃ s, p.content = some s ∧ stripFirstToken s = none := by
    intro p hp
    rcases List.mem_append.mp hp with hp1 | hp2
    · exact hpre p hp1
    · rcases List.mem_cons.mp hp2 with rfl | hp3
      · exact ⟨rest2, rfl, hrest⟩
      · exact hpost p hp3
  refine ⟨?_, ?_, ?_⟩
  · exact scanGo_skip d pre (m :: post) (w, withContent m (some rest2) :: post)
      (by simp [scanGo, hm, hstrip]) hpre
  · intro p hp s hs
    obtain ⟨s2, hs2, hn2⟩ := hall p hp
    rw [hs] at hs2
    injection hs2 with hs3
    exact hs3 ▸ hn2
  · intro d2
    exact scanGo_id d2 _ hall

/-- Witness for C8: the token `!mistral-small` sits once in the middle
message of three. -/
theorem c8_override_once_witness :
    scanGo "gpt-4o" ([userMsg "bob" "hello"] ++ userMsg "alice" "use !mistral-small please" :: [userMsg "eve" "ok"])
      = .ok ("mistral-small",
          [userMsg "bob" "hello"]
            ++ withContent (userMsg "alice" "use !mistral-small please") (some "use  please")
            :: [userMsg "eve" "ok"]) ∧
    (∀ p ∈ [userMsg "bob" "hello"]
        ++ withContent (userMsg "alice" "use !mistral-small please") (some "use  please")
        :: [userMsg "eve" "ok"],
      ∀ s, p.content = some s → stripFirstToken s = none) ∧
    (∀ d2, scanGo d2
        ([userMsg "bob" "hello"]
          ++ withContent (userMsg "alice" "use !mistral-small please") (some "use  please")
          :: [userMsg "eve" "ok"])
      = .ok (d2,
          [userMsg "bob" "hello"]
            ++ withContent (userMsg "alice" "use !mistral-small please") (some "use  please")
            :: [userMsg "eve" "ok"])) :=
  c8_override_once "gpt-4o" [userMsg "bob" "hello"] [userMsg "eve" "ok"]
    (userMsg "alice" "use !mistral-small please")
    "use !mistral-small please" "mistral-small" "use  please"
    (by decide) rfl (by decide) (by decide) (by decide)

/-- The scan preserves the length, roles and names of the message list
whenever every content is present. -/
theorem scanGo_shape (d : String) :
    ∀ msgs : List Msg,
      (∀ m ∈ msgs, m.content ≠ none) →
      ∃ mod msgs2, scanGo d msgs = .ok (mod, msgs2) ∧
        msgs2.length = msgs.length ∧
        ∀ i, (msgs2.getD i dMsg).role = (msgs.getD i dMsg).role ∧
             (msgs2.getD i dMsg).name = (msgs.getD i dMsg).name := by
  intro msgs
  induction msgs with
  | nil =>
    intro _
    exact ⟨d, [], rfl, rfl, fun i => ⟨rfl, rfl⟩⟩
  | cons m rest ih =>
    intro h
    obtain ⟨s, hs⟩ : ∃ s, m.content = some s := by
      cases hc : m.content with
      | none => exact absurd hc (h m (by simp))
      | some s => exact ⟨s, rfl⟩
    cases hstrip : stripFirstToken s with
    | some p =>
      obtain ⟨w, s2⟩ := p
      refine ⟨w, withContent m (some s2) :: rest, by simp [scanGo, hs, hstrip], by simp, ?_⟩
      intro i
      cases i with
      | zero => exact ⟨rfl, rfl⟩
      | succ j => simp [List.getD_cons_succ]
    | none =>
      obtain ⟨mod, rest2, heq, hlen, hmeta⟩ := ih (fun r hr => h r (by simp [hr]))
      refine ⟨mod, m :: rest2, by simp only [scanGo, hs, hstrip, heq]; rfl, by simp [hlen], ?_⟩
      intro i
      cases i with
      | zero => exact ⟨rfl, rfl⟩
      | succ j => simpa [List.getD_cons_succ] using hmeta j

/-- The developer-message template holds no override token when the
interpolated date and time strings hold no bang. -/
theorem devContent_no_token (dt tm : String)
    (h1 : '!' ∉ dt.data) (h2 : '!' ∉ tm.data) :
    stripFirstToken (devContent dt tm) = none := by
  refine stripFirstToken_of_no_bang _ ?_
  intro h
  unfold devContent at h
  simp only [String.data_append, List.mem_append] at h
  rcases h with (((h | h) | h) | h) | h
  · exact absurd h (by decide)
  · exact h1 h
  · exact absurd h (by decide)
  · exact h2 h
  · exact absurd h (by decide)

/-- Whenever the scan succeeds at all — whatever the message contents —
its output has the length, roles and names of its input, position by
position. -/
theorem scanGo_shape_of_ok (d : String) :
    ∀ (msgs : List Msg) (mod : String) (msgs2 : List Msg),
      scanGo d msgs = .ok (mod, msgs2) →
      msgs2.length = msgs.length ∧
      ∀ i, (msgs2.getD i dMsg).role = (msgs.getD i dMsg).role ∧
           (msgs2.getD i dMsg).name = (msgs.getD i dMsg).name := by
  intro msgs
  induction msgs with
  | nil =>
    intro mod msgs2 heq
    have h0 : Except.ok (d, ([] : List Msg)) = Except.ok (mod, msgs2) := heq
    injection h0 with h3
    injection h3 with hm hl
    rw [← hl]
    exact ⟨rfl, fun i => ⟨rfl, rfl⟩⟩
  | cons m rest ih =>
    intro mod msgs2 heq
    cases hc : m.content with
    | none =>
      rw [show scanGo d (m :: rest) = .error .typeError by simp [scanGo, hc]] at heq
      exact Except.noConfusion heq
    | some s =>
      cases hstrip : stripFirstToken s with
      | some p =>
        obtain ⟨w, s2⟩ := p
        rw [show scanGo d (m :: rest) = .ok (w, withContent m (some s2) :: rest) by
          simp [scanGo, hc, hstrip]] at heq
        injection heq with h3
        injection h3 with hm hl
        rw [← hl]
        refine ⟨by simp, ?_⟩
        intro i
        cases i with
        | zero => exact ⟨rfl, rfl⟩
        | succ j => simp [List.getD_cons_succ]
      | none =>
        cases hrec : scanGo d rest with
        | error e =>
          rw [show scanGo d (m :: rest) = .error e by
            simp only [scanGo, hc, hstrip, hrec]; rfl] at heq
          exact Except.noConfusion heq
        | ok p =>
          obtain ⟨mod2, rest2⟩ := p
          rw [show scanGo d (m :: rest) = .ok (mod2, m :: rest2) by
            simp only [scanGo, hc, hstrip, hrec]; rfl] at heq
          injection heq with h3
          injection h3 with hm hl
          rw [← hl]
          obtain ⟨hlen, hmeta⟩ := ih mod2 rest2 hrec
          refine ⟨by simp [hlen], ?_⟩
          intro i
          cases i with
          | zero => exact ⟨rfl, rfl⟩
          | succ j => simpa [List.getD_cons_succ] using hmeta j

/-- The scan raises the `TypeError` of `pattern.search(None)` as soon as
it reaches a message with `None` content without having matched
earlier. -/
theorem scanGo_none_err (d : String) :
    ∀ (pre : List Msg) (m : Msg) (post : List Msg),
      (∀ p ∈ pre, ∃ s, p.content = some s ∧ stripFirstToken s = none) →
      m.content = none →
      scanGo d (pre ++ m :: post) = .error .typeError := by
  intro pre
  induction pre with
  | nil => intro m post _ hm; simp [scanGo, hm]
  | cons p pre2 ih =>
    intro m post hpre hm
    obtain ⟨s, hs, hsn⟩ := hpre p (by simp)
    have := ih m post (fun r hr => hpre r (by simp [hr])) hm
    simp only [List.cons_append, scanGo, hs, hsn, List.append_eq]
    rw [this]
    rfl

/-- C7: Every conversation *sent to a provider* — at top level and in
every recursive continuation, all of which go through the same
`buildMessages`/override-scan pipeline before `create_chat_completion` —
begins with exactly one freshly synthesized developer message carrying
the current date and time (untouched by the scan, whose template holds
no bang), followed by the history argument of that dispatch and then the
new user message, both preserved position-by-position in role and name.
Part one states this for *whatever* history the dispatch carries — in a
recursive continuation the history is the previous conversation
`messages[:-1]`, so any developer message inside `rest` is the earlier
round's, embedded in the reconstructed history exactly as the spec's
recursion prescribes, and the freshly synthesized one remains unique at
the head.  Part two adds that on a history with all contents present
(every top-level call) the dispatch indeed happens.  Part three covers
the remaining continuations: a history carrying a `None`-content
assistant tool-call descriptor with no override token before it makes
the scan raise the `TypeError` of `bot.py:127`, so the continuation
aborts before `create_chat_completion` and sends no conversation at all
— the claim holds vacuously for it. -/
theorem c7_conversation_shape (d dt tm sender q : String) (hist : List Msg)
    (h1 : '!' ∉ dt.data) (h2 : '!' ∉ tm.data) :
    (∀ mod msgs2, scanGo d (buildMessages dt tm hist sender q) = .ok (mod, msgs2) →
      ∃ rest, msgs2 = devMsg dt tm :: rest ∧
        rest.length = hist.length + 1 ∧
        ∀ i, (rest.getD i dMsg).role
              = ((hist ++ [userMsg (filteredName sender) q]).getD i dMsg).role ∧
             (rest.getD i dMsg).name
              = ((hist ++ [userMsg (filteredName sender) q]).getD i dMsg).name) ∧
    ((∀ m ∈ hist, m.content ≠ none) →
      ∃ mod rest, scanGo d (buildMessages dt tm hist sender q) = .ok (mod, devMsg dt tm :: rest) ∧
        rest.length = hist.length + 1 ∧
        ∀ i, (rest.getD i dMsg).role
              = ((hist ++ [userMsg (filteredName sender) q]).getD i dMsg).role ∧
             (rest.getD i dMsg).name
              = ((hist ++ [userMsg (filteredName sender) q]).getD i dMsg).name) ∧
    (∀ (pre : List Msg) (mN : Msg) (post : List Msg),
      hist = pre ++ mN :: post →
      (∀ p ∈ pre, ∃ s, p.content = some s ∧ stripFirstToken s = none) →
      mN.content = none →
      scanGo d (buildMessages dt tm hist sender q) = .error .typeError) := by
  have hdevstrip : stripFirstToken (devContent dt tm) = none :=
    devContent_no_token dt tm h1 h2
  refine ⟨?_, ?_, ?_⟩
  · intro mod msgs2 heq
    cases hrec : scanGo d (hist ++ [userMsg (filteredName sender) q]) with
    | error e =>
      rw [show scanGo d (buildMessages dt tm hist sender q) = .error e by
        simp only [buildMessages, scanGo, devMsg, hdevstrip, hrec]; rfl] at heq
      exact Except.noConfusion heq
    | ok p =>
      obtain ⟨mod2, t2⟩ := p
      rw [show scanGo d (buildMessages dt tm hist sender q) = .ok (mod2, devMsg dt tm :: t2) by
        simp only [buildMessages, scanGo, devMsg, hdevstrip, hrec]; rfl] at heq
      injection heq with h3
      injection h3 with hm hl
      obtain ⟨hlen, hmeta⟩ := scanGo_shape_of_ok d (hist ++ [userMsg (filteredName sender) q])
        mod2 t2 hrec
      exact ⟨t2, hl.symm, by simpa using hlen, hmeta⟩
  · intro h3
    have hall : ∀ m ∈ hist ++ [userMsg (filteredName sender) q], m.content ≠ none := by
      intro m hm
      rcases List.mem_append.mp hm with hm1 | hm2
      · exact h3 m hm1
      · rcases List.mem_singleton.mp hm2 with rfl
        simp [userMsg]
    obtain ⟨mod, t2, heq, hlen, hmeta⟩ :=
      scanGo_shape d (hist ++ [userMsg (filteredName sender) q]) hall
    refine ⟨mod, t2, ?_, ?_, hmeta⟩
    · simp only [buildMessages, scanGo, devMsg, hdevstrip, heq]
      rfl
    · simpa using hlen
  · intro pre mN post hhist hpre hmN
    have hb : buildMessages dt tm hist sender q
        = (devMsg dt tm :: pre) ++ mN :: (post ++ [userMsg (filteredName sender) q]) := by
      rw [hhist]
      simp [buildMessages]
    rw [hb]
    refine scanGo_none_err d (devMsg dt tm :: pre) mN (post ++ [userMsg (filteredName sender) q])
      ?_ hmN
    intro r hr
    rcases List.mem_cons.mp hr with rfl | hr2
    · exact ⟨devContent dt tm, rfl, hdevstrip⟩
    · exact hpre r hr2

/-- Witness for C7: the top-level shape at a concrete one-message
history, and the `TypeError` abort of a concrete continuation-style
history carrying a `None`-content assistant tool-call descriptor. -/
theorem c7_conversation_shape_witness :
    (∃ mod rest,
      scanGo "gpt-4o" (buildMessages "Monday" "12:00" [userMsg "bob" "hello"] "@alice:matrix.org" "hi")
        = .ok (mod, devMsg "Monday" "12:00" :: rest) ∧
      rest.length = ([userMsg "bob" "hello"] : List Msg).length + 1 ∧
      ∀ i, (rest.getD i dMsg).role
            = (([userMsg "bob" "hello"] ++ [userMsg (filteredName "@alice:matrix.org") "hi"]).getD i dMsg).role ∧
           (rest.getD i dMsg).name
            = (([userMsg "bob" "hello"] ++ [userMsg (filteredName "@alice:matrix.org") "hi"]).getD i dMsg).name) ∧
    scanGo "gpt-4o"
      (buildMessages "Monday" "12:00"
        [userMsg "bob" "hello", assistantToolMsg "1" "weather" "[]"] "@alice:matrix.org" "")
      = .error .typeError :=
  ⟨(c7_conversation_shape "gpt-4o" "Monday" "12:00" "@alice:matrix.org" "hi"
      [userMsg "bob" "hello"] (by decide) (by decide)).2.1 (by decide),
   (c7_conversation_shape "gpt-4o" "Monday" "12:00" "@alice:matrix.org" ""
      [userMsg "bob" "hello", assistantToolMsg "1" "weather" "[]"] (by decide) (by decide)).2.2
     [userMsg "bob" "hello"] (assistantToolMsg "1" "weather" "[]") [] rfl
     (by
       intro p hp
       rcases List.mem_singleton.mp hp with rfl
       exact ⟨"hello", rfl, by decide⟩)
     rfl⟩

/-! ## The streaming loop: lemmas and claim C1 -/

/-- The throttling relation between two consecutive edits of one
response: at least 1 second has elapsed since the previous edit, or the
chunk carried a non-null finish reason. -/
def ThrottleOk (e1 e2 : Edit) : Prop :=
  1 ≤ e2.time - e1.time ∨ e2.finReason ≠ none

/-- An edit emitted while the response is still in progress: the finish
reason is null or the tool-call terminal marker. -/
def InProgress (e : Edit) : Prop :=
  e.finReason = none ∨ e.finReason = some "tool_calls"

/-- A string ending in the ellipsis character. -/
def endsEllip (s : String) : Prop :=
  s.data.getLast? = some '…'

/-- Appending the ellipsis makes any string end in it. -/
theorem endsEllip_append (s : String) : endsEllip (s ++ "…") := by
  unfold endsEllip
  rw [String.data_append, show ("…" : String).data = ['…'] from rfl]
  exact List.getLast?_concat s.data

/-- The loop invariant: the recorded `_last_edit_time` equals the time
of the last emitted edit when one exists, consecutive edits satisfy the
throttling relation, every in-progress edit ends in an ellipsis, and no
tool calls have been collected. -/
def StreamInv (st : StreamState) : Prop :=
  (∀ e, st.edits.getLast? = some e → st.lastEdit = some e.time) ∧
  List.Chain' ThrottleOk st.edits ∧
  (∀ e ∈ st.edits, InProgress e → endsEllip e.text) ∧
  st.collected = []

/-- The fragment-free part of one loop iteration: the state with the
text delta appended when truthy. -/
def contentStep (st : StreamState) (c : TChunk) : StreamState :=
  ⟨st.curId, st.collected,
   if truthyOpt c.content then st.texts ++ [c.content.getD ""] else st.texts,
   st.lastEdit, st.edits⟩

/-- On a chunk without tool-call fragments, the loop body reduces to the
pure edit step. -/
theorem processChunk_noFrag (st : StreamState) (c : TChunk)
    (hc : c.toolCalls.getD [] = []) :
    processChunk st c
      = (match st.lastEdit with
         | some t =>
           if c.time - t < 1 ∧ truthyOpt c.finishReason = false then
             Except.ok (contentStep st c)
           else Except.ok (emitEdit (contentStep st c) c)
         | none => Except.ok (emitEdit (contentStep st c) c)) := by
  unfold processChunk ingestFragments contentStep
  rw [hc]
  rfl

/-- The loop body on a fragment-free chunk when `_last_edit_time` is
unset: always emit. -/
theorem processChunk_none (st : StreamState) (c : TChunk)
    (hc : c.toolCalls.getD [] = []) (hle : st.lastEdit = none) :
    processChunk st c = .ok (emitEdit (contentStep st c) c) := by
  rw [processChunk_noFrag st c hc, hle]

/-- The loop body on a fragment-free chunk inside the throttling window
with a falsy finish reason: skip the edit. -/
theorem processChunk_skip (st : StreamState) (c : TChunk) (t : ℚ)
    (hc : c.toolCalls.getD [] = []) (hle : st.lastEdit = some t)
    (hs : c.time - t < 1 ∧ truthyOpt c.finishReason = false) :
    processChunk st c = .ok (contentStep st c) := by
  rw [processChunk_noFrag st c hc, hle]
  show (if c.time - t < 1 ∧ truthyOpt c.finishReason = false then
          Except.ok (contentStep st c)
        else Except.ok (emitEdit (contentStep st c) c)) = _
  rw [if_pos hs]

/-- The loop body on a fragment-free chunk outside the throttling window
or with a truthy finish reason: emit. -/
theorem processChunk_emit (st : StreamState) (c : TChunk) (t : ℚ)
    (hc : c.toolCalls.getD [] = []) (hle : st.lastEdit = some t)
    (hs : ¬ (c.time - t < 1 ∧ truthyOpt c.finishReason = false)) :
    processChunk st c = .ok (emitEdit (contentStep st c) c) := by
  rw [processChunk_noFrag st c hc, hle]
  show (if c.time - t < 1 ∧ truthyOpt c.finishReason = false then
          Except.ok (contentStep st c)
        else Except.ok (emitEdit (contentStep st c) c)) = _
  rw [if_neg hs]

/-- Emitting an edit preserves the loop invariant. -/
theorem emitEdit_inv (st : StreamState) (c : TChunk)
    (hinv : StreamInv st)
    (hok : ∀ e, st.edits.getLast? = some e →
      1 ≤ c.time - e.time ∨ c.finishReason ≠ none) :
    StreamInv (emitEdit st c) := by
  obtain ⟨hlast, hchain, hell, hcol⟩ := hinv
  refine ⟨?_, ?_, ?_, hcol⟩
  · intro e he
    simp only [emitEdit, List.getLast?_concat, Option.some.injEq] at he
    rw [← he]
    rfl
  · refine List.Chain'.append hchain (List.chain'_singleton _) ?_
    intro x hx y hy
    simp only [List.head?_cons, Option.mem_def, Option.some.injEq] at hy
    subst hy
    have := hok x (Option.mem_def.mp hx)
    unfold ThrottleOk
    simpa using this
  · intro e he hprog
    rcases List.mem_append.mp he with h1 | h2
    · exact hell e h1 hprog
    · rcases List.mem_singleton.mp h2 with rfl
      have hcond : truthyOpt c.finishReason = false ∨ c.finishReason = some "tool_calls" := by
        rcases hprog with h | h
        · exact Or.inl (by rw [show c.finishReason = none from h]; rfl)
        · exact Or.inr (show c.finishReason = some "tool_calls" from h)
      show endsEllip (if truthyOpt c.finishReason = false ∨ c.finishReason = some "tool_calls"
        then String.join st.texts ++ "…" else String.join st.texts)
      rw [if_pos hcond]
      exact endsEllip_append _

/-- The streaming loop over fragment-free chunks succeeds and maintains
the invariant. -/
theorem runLoopAux_inv :
    ∀ (chunks : List TChunk) (st : StreamState),
      (∀ c ∈ chunks, c.toolCalls.getD [] = []) →
      StreamInv st →
      ∃ st2, chunks.foldlM processChunk st = .ok st2 ∧ StreamInv st2 := by
  intro chunks
  induction chunks with
  | nil => intro st _ hinv; exact ⟨st, rfl, hinv⟩
  | cons c cs ih =>
    intro st hnf hinv
    have hc : c.toolCalls.getD [] = [] := hnf c (by simp)
    have hrest : ∀ d ∈ cs, d.toolCalls.getD [] = [] := fun d hd => hnf d (by simp [hd])
    have hinv2 : StreamInv (contentStep st c) := hinv
    cases hle : st.lastEdit with
    | none =>
      rw [List.foldlM_cons, processChunk_none st c hc hle]
      have hemit : StreamInv (emitEdit (contentStep st c) c) := by
        refine emitEdit_inv (contentStep st c) c hinv2 ?_
        intro e he
        have := hinv2.1 e he
        rw [show (contentStep st c).lastEdit = st.lastEdit from rfl, hle] at this
        cases this
      exact ih (emitEdit (contentStep st c) c) hrest hemit
    | some t =>
      by_cases hskip : c.time - t < 1 ∧ truthyOpt c.finishReason = false
      · rw [List.foldlM_cons, processChunk_skip st c t hc hle hskip]
        exact ih (contentStep st c) hrest hinv2
      · rw [List.foldlM_cons, processChunk_emit st c t hc hle hskip]
        have hemit : StreamInv (emitEdit (contentStep st c) c) := by
          refine emitEdit_inv (contentStep st c) c hinv2 ?_
          intro e he
          have hte : (contentStep st c).lastEdit = some e.time := hinv2.1 e he
          rw [show (contentStep st c).lastEdit = st.lastEdit from rfl, hle] at hte
          injection hte with hte2
          rcases Decidable.not_and_iff_or_not.mp hskip with h | h
          · exact Or.inl (by rw [← hte2]; linarith [not_lt.mp h])
          · refine Or.inr ?_
            intro hnone
            exact h (by simp [truthyOpt, hnone])
        exact ih (emitEdit (contentStep st c) c) hrest hemit

/-- C1: During one streamed response whose chunks carry no tool-call
fragments and whose only non-null finish reason sits on the last chunk:
every pair of consecutive loop edits is separated by at least 1 second
unless the later chunk carried a non-null finish reason (an edit is
emitted only under the throttling rule), every edit emitted while the
finish reason is still null or equal to the tool-call marker ends in an
ellipsis, and — since nothing was collected — the full emitted sequence
is the loop edits followed by exactly one final edit whose text is the
bare join of the content deltas, with no ellipsis appended (it ends in
an ellipsis only if the streamed content itself does). -/
theorem c1_stream_throttle (init : Option ℚ) (body : List TChunk) (lastc : TChunk)
    (hb : ∀ c ∈ body, c.finishReason = none)
    (hl : lastc.finishReason ≠ none)
    (hnf : ∀ c ∈ body ++ [lastc], c.toolCalls.getD [] = []) :
    ∃ st, runLoop init (body ++ [lastc]) = .ok st ∧
      st.collected = [] ∧
      List.Chain' ThrottleOk st.edits ∧
      (∀ e ∈ st.edits, InProgress e → endsEllip e.text) ∧
      noToolTrace st = st.edits.map Edit.text ++ [String.join st.texts] ∧
      (noToolTrace st).getLast? = some (String.join st.texts) ∧
      (¬ endsEllip (String.join st.texts) →
        ∀ s, (noToolTrace st).getLast? = some s → ¬ endsEllip s) := by
  have hinit : StreamInv ⟨none, [], [], init, []⟩ := by
    refine ⟨?_, ?_, ?_, rfl⟩
    · intro e he; cases he
    · exact List.chain'_nil
    · intro e he; cases he
  obtain ⟨st, heq, hinv⟩ := runLoopAux_inv (body ++ [lastc]) ⟨none, [], [], init, []⟩ hnf hinit
  refine ⟨st, heq, hinv.2.2.2, hinv.2.1, hinv.2.2.1, rfl, ?_, ?_⟩
  · exact List.getLast?_concat _
  · intro hne s hs
    have h6 : (noToolTrace st).getLast? = some (String.join st.texts) :=
      List.getLast?_concat _
    rw [h6] at hs
    injection hs with hs2
    rw [← hs2]
    exact hne

/-- Witness for C1: three content chunks at times 0, ½ and 2 seconds,
the last carrying the `stop` finish reason. -/
theorem c1_stream_throttle_witness :
    ∃ st, runLoop none
        ([⟨some "Hel", none, none, 0⟩, ⟨some "lo wor", none, none, (1 : ℚ)/2⟩]
          ++ [⟨some "ld", none, some "stop", 2⟩]) = .ok st ∧
      st.collected = [] ∧
      List.Chain' ThrottleOk st.edits ∧
      (∀ e ∈ st.edits, InProgress e → endsEllip e.text) ∧
      noToolTrace st = st.edits.map Edit.text ++ [String.join st.texts] ∧
      (noToolTrace st).getLast? = some (String.join st.texts) ∧
      (¬ endsEllip (String.join st.texts) →
        ∀ s, (noToolTrace st).getLast? = some s → ¬ endsEllip s) :=
  c1_stream_throttle none
    [⟨some "Hel", none, none, 0⟩, ⟨some "lo wor", none, none, (1 : ℚ)/2⟩]
    ⟨some "ld", none, some "stop", 2⟩
    (by decide) (by decide) (by decide)

end MaubotChatGPT
